import Mathlib

/-!
Verification development for the `msocks` virtual-connection engine
(`src/msocks/conn.go`): the ack batcher (`DelayDo`), the pipe adapter
(`Pipe`), the bounded frame inbox (`ChanFrameSender`), and the per-stream
dispatch loop and close/teardown state machine of `Conn`.

Machine integers of the source are modelled as `Nat` (counts and sizes are
non-negative and far from overflow in all statements proved here); fallible
operations return `Option` errors; the mutex-serialized increment/timer
paths of `DelayDo` are modelled as atomic steps of a transition system.
-/

namespace Msocks

/-! ### Ack batcher: `DelayDo`

`DelayDo` holds a pending count `cnt` and an optional running timer
(modelled by the Boolean `timer`: whether `d.timer != nil`).  The threshold
constant `WIN_SIZE` is defined outside `src/` and is taken as a parameter
`w` throughout. -/

structure DelayDo where
  cnt : Nat
  timer : Bool
  deriving DecidableEq, Repr

/-- `NewDelayDo`: fresh batcher, no pending count, no timer. -/
def NewDelayDo : DelayDo := { cnt := 0, timer := false }

/-- `DelayDo.Add` (conn.go lines 28–54): increment `cnt`; if it reaches the
threshold `w` (`WIN_SIZE`), invoke `do` with the current count, stop the
timer and reset the count; afterwards, if the count is nonzero and no timer
runs, start one.  Returns the new state and the list of arguments passed to
the `do` action during this call. -/
def DelayDo.Add (w : Nat) (d : DelayDo) : DelayDo × List Nat :=
  let cnt := d.cnt + 1
  if w ≤ cnt then
    ({ cnt := 0, timer := false }, [cnt])
  else
    ({ cnt := cnt, timer := true }, [])

/-- Body of the `time.AfterFunc` callback (conn.go lines 43–51): under the
lock, if the pending count is positive invoke `do` with it; then clear the
timer reference and reset the count.  Only enabled while a timer runs. -/
def DelayDo.timerFire (d : DelayDo) : DelayDo × List Nat :=
  ({ cnt := 0, timer := false }, if 0 < d.cnt then [d.cnt] else [])

/-- Events serialized by the batcher's mutex: an `Add()` call, or the firing
of the delay timer. -/
inductive DDEvent
  | add
  | fire
  deriving DecidableEq, Repr

/-- One serialized step of the batcher.  A `fire` event is a no-op when no
timer is running (no callback is scheduled then). -/
def DelayDo.step (w : Nat) (d : DelayDo) : DDEvent → DelayDo × List Nat
  | .add => d.Add w
  | .fire => if d.timer then d.timerFire else (d, [])

/-- Run a sequence of batcher events, collecting every argument passed to
the `do` action, in order. -/
def DelayDo.run (w : Nat) (d : DelayDo) : List DDEvent → DelayDo × List Nat
  | [] => (d, [])
  | e :: es =>
    let s := d.step w e
    let r := (s.1).run w es
    (r.1, s.2 ++ r.2)

/-- Number of `Add()` calls in an event sequence. -/
def addCount : List DDEvent → Nat
  | [] => 0
  | .add :: es => addCount es + 1
  | .fire :: es => addCount es

/-! ### Pipe adapter

`Pipe` wraps an `io.Pipe` reader/writer pair.  `Pipe.Read` and `Pipe.Write`
delegate to the underlying ends and translate the low-level
`io.ErrClosedPipe` into `io.EOF`.  The underlying operation's outcome is
modelled abstractly as a byte count and an optional error. -/

/-- Errors observable from the underlying `io` pipe operations: `eof`
(`io.EOF`), `closedPipe` (`io.ErrClosedPipe`), or any other error value. -/
inductive IOErr
  | eof
  | closedPipe
  | other
  deriving DecidableEq, Repr

/-- `Pipe.Read` (conn.go lines 68–74): pass the underlying `pr.Read` result
through, rewriting `io.ErrClosedPipe` to `io.EOF`. -/
def Pipe.Read (res : Nat × Option IOErr) : Nat × Option IOErr :=
  (res.1, if res.2 = some .closedPipe then some .eof else res.2)

/-- `Pipe.Write` (conn.go lines 76–82): pass the underlying `pw.Write`
result through, rewriting `io.ErrClosedPipe` to `io.EOF`. -/
def Pipe.Write (res : Nat × Option IOErr) : Nat × Option IOErr :=
  (res.1, if res.2 = some .closedPipe then some .eof else res.2)

/-- The close-relevant state of a `Pipe`: the `Closed` flag and whether each
underlying end has been closed. -/
structure PipeState where
  Closed : Bool
  prClosed : Bool
  pwClosed : Bool
  deriving DecidableEq, Repr

/-- `NewPipe` (conn.go lines 62–66): fresh pipe, nothing closed. -/
def NewPipe : PipeState := { Closed := false, prClosed := false, pwClosed := false }

/-- `Pipe.Close` (conn.go lines 84–89): set `Closed`, close both underlying
ends (each of which always returns nil in Go), and return the never-assigned
named error, i.e. nil. -/
def PipeState.Close (_p : PipeState) : PipeState × Option IOErr :=
  ({ Closed := true, prClosed := true, pwClosed := true }, none)

/-! ### Bounded inbox: `ChanFrameSender`

A buffered Go channel of frames with capacity `cap`.  `SendFrame` performs
a `select` with a `default` branch (non-blocking) under a `recover()`:
a send on a closed channel panics and is recovered, leaving the named
return `b` at its zero value `false`. -/

/-- State of a buffered channel: pending queue, capacity, closed flag. -/
structure ChanState (α : Type) where
  queue : List α
  cap : Nat
  closed : Bool
  deriving DecidableEq, Repr

/-- `ChanFrameSender.SendFrame` (conn.go lines 107–115): non-blocking send.
On a closed channel the send panics and `recover()` yields `false`; on a
full channel the `default` branch yields `false`; otherwise the frame is
enqueued and the result is `true`. -/
def ChanState.SendFrame (c : ChanState α) (f : α) : ChanState α × Bool :=
  if c.closed then (c, false)
  else if c.queue.length < c.cap then ({ c with queue := c.queue ++ [f] }, true)
  else (c, false)

/-! ### `Conn.Write` chunking

`Conn.Write` (conn.go lines 209–233) walks the payload, at each iteration
choosing a chunk size from the remaining length: above 8 KiB the chunk is
cut to `3*1024 + rand.Intn(1024)`; in (4 KiB, 8 KiB] it is halved; at or
below 4 KiB the rest is sent whole.  `rand.Intn(1024)` is modelled as
`rnd i % 1024` for an arbitrary stream `rnd` of naturals (`i` counts the
iterations); the session's window-controlled sender `sw.Data` is modelled
as a function `send` from the iteration index and the chunk to an optional
error. -/

/-- The chunk-size policy of one `Conn.Write` iteration, given the random
draw `r` and the remaining length `len`. -/
def chunkSize (r len : Nat) : Nat :=
  if 8 * 1024 < len then 3 * 1024 + r % 1024
  else if 4 * 1024 < len ∧ len ≤ 8 * 1024 then len / 2
  else len

/-- `Conn.Write` (conn.go lines 209–233).  `k` is the iteration index
(starts at 0), `n` the running byte count (the named return).  Returns the
final byte count, the error returned, and the list of chunks handed to
`sw.Data`, in order (the chunk on which the sender failed included). -/
def connWrite (send : Nat → List α → Option ε) (rnd : Nat → Nat)
    (k n : Nat) (data : List α) : Nat × Option ε × List (List α) :=
  if h : data.length = 0 then (n, none, [])
  else
    let size := chunkSize (rnd k) data.length
    match send k (data.take size) with
    | some e => (n, some e, [data.take size])
    | none =>
      let r := connWrite send rnd (k + 1) (n + size) (data.drop size)
      (r.1, r.2.1, data.take size :: r.2.2)
termination_by data.length
decreasing_by
  have hr : rnd k % 1024 < 1024 := Nat.mod_lt _ (by norm_num)
  have hpos : 0 < chunkSize (rnd k) data.length := by
    unfold chunkSize
    split
    · omega
    · split
      · omega
      · omega
  simp only [List.length_drop]
  omega

/-! ### The session's sender and the `Conn` close/teardown state machine -/

/-- Modelled from the spec: the send side of the session's window-controlled
sender (`SeqWriter`, not under `src/`).  Only the close-related surface is
needed here: `sendFin` is idempotent and reports a distinguished "already
closed" condition (`io.EOF`) rather than a generic error on repeat, and
`Closed()` reports whether the send side is closed. -/
structure SeqWriter where
  closed : Bool
  deriving DecidableEq, Repr

/-- Modelled from the spec: `SeqWriter.Close` emits a `Fin` and closes the
send side; a repeated close reports the distinguished `io.EOF`. -/
def SeqWriter.Close (sw : SeqWriter) : SeqWriter × Option IOErr :=
  if sw.closed then (sw, some .eof) else ({ closed := true }, none)

/-- The close-relevant state of a `Conn`: its `SeqWriter` send side, the
`Pipe.Closed` flag, the inbox-closed flag, the one-shot `sync.Once` guard
`removefunc`, and a count of `sess.RemovePorts` invocations. -/
structure ConnState where
  sw : SeqWriter
  pipeClosed : Bool
  chanClosed : Bool
  removeDone : Bool
  removeCalls : Nat
  deriving DecidableEq, Repr

/-- A `Conn` as built by `NewConn`: nothing closed, removal not performed. -/
def ConnState.init : ConnState :=
  { sw := { closed := false }, pipeClosed := false, chanClosed := false,
    removeDone := false, removeCalls := 0 }

/-- `Conn.remove_port` (conn.go lines 235–243): under the `sync.Once` guard,
call `sess.RemovePorts` (errors logged, never propagated) and close the
inbox. -/
def ConnState.remove_port (c : ConnState) : ConnState :=
  if c.removeDone then c
  else { c with removeDone := true, removeCalls := c.removeCalls + 1, chanClosed := true }

/-- `Conn.Close` (conn.go lines 245–262): close the send side via
`sw.Close`; an `io.EOF` ("already closed") is normalized to success; on any
remaining error return it; otherwise, if the pipe is already closed, finish
removal.  Returns the new state and the error returned to the caller. -/
def ConnState.Close (c : ConnState) : ConnState × Option IOErr :=
  let s := c.sw.Close
  let err := if s.2 = some .eof then none else s.2
  let c1 := { c with sw := s.1 }
  match err with
  | some e => (c1, some e)
  | none => (if c1.pipeClosed then c1.remove_port else c1, none)

/-- The `FrameFin` branch of `Conn.Run` (conn.go lines 184–192): close the
pipe; if the send side is already closed, finish removal. -/
def ConnState.handleFin (c : ConnState) : ConnState :=
  let c1 := { c with pipeClosed := true }
  if c1.sw.closed then c1.remove_port else c1

/-- `Conn.CloseAll` (conn.go lines 264–269): close the send side (error
ignored), close the pipe, and unconditionally finish removal. -/
def ConnState.CloseAll (c : ConnState) : ConnState :=
  let c1 := { c with sw := (c.sw.Close).1 }
  let c2 := { c1 with pipeClosed := true }
  c2.remove_port

/-- The three call sites that can reach `remove_port`: a local `Close()`,
a remote `Fin` processed by the dispatch loop, and a fatal `CloseAll`
teardown. -/
inductive ConnEvent
  | localClose
  | remoteFin
  | teardown
  deriving DecidableEq, Repr

/-- Apply one close-path event to a `Conn` (the error returned by a local
`Close()` is examined separately via `ConnState.Close`). -/
def ConnState.applyEvent (c : ConnState) : ConnEvent → ConnState
  | .localClose => (c.Close).1
  | .remoteFin => c.handleFin
  | .teardown => c.CloseAll

/-- Run a sequence of close-path events. -/
def ConnState.runEvents (c : ConnState) : List ConnEvent → ConnState
  | [] => c
  | e :: es => (c.applyEvent e).runEvents es

/-! ### Dispatch loop of `Conn.Run` -/

/-- Frames dispatched by `Conn.Run`: `FrameData` with its payload,
`FrameAck` with its window, `FrameFin`, or any unexpected frame kind. -/
inductive Frame (α : Type)
  | data (payload : List α)
  | ack (window : Nat)
  | fin
  | other
  deriving DecidableEq, Repr

/-- Whether the dispatch loop keeps looping or returns after a frame. -/
inductive LoopOutcome
  | looping
  | terminated
  deriving DecidableEq, Repr

/-- State touched by the dispatch loop: the close/teardown state and the
ack batcher. -/
structure DispatchState where
  conn : ConnState
  dd : DelayDo
  deriving DecidableEq, Repr

/-- One iteration of `Conn.Run`'s dispatch (conn.go lines 146–195) on a
received frame, with ack threshold `w`.  On `FrameData`: `dd.Add()` (one
increment, before the pipe write), then `Pipe.Write` of the payload — which
returns `io.EOF` when the pipe is closed, triggering `CloseAll` and
termination.  On `FrameAck`: `sw.Release` only touches the session's window
bookkeeping (external to this state).  On `FrameFin`: close the pipe,
finish removal if the send side is closed, and return.  On an unexpected
frame: `CloseAll` and return.  Produces the new state, the ack-action
invocations of the step, and whether the loop continues. -/
def runStep (w : Nat) (s : DispatchState) :
    Frame α → DispatchState × List Nat × LoopOutcome
  | .data _payload =>
    let a := s.dd.Add w
    if s.conn.pipeClosed then
      ({ conn := s.conn.CloseAll, dd := a.1 }, a.2, .terminated)
    else
      ({ s with dd := a.1 }, a.2, .looping)
  | .ack _window => (s, [], .looping)
  | .fin => ({ s with conn := s.conn.handleFin }, [], .terminated)
  | .other => ({ s with conn := s.conn.CloseAll }, [], .terminated)

/-- Run the dispatch loop over a finite sequence of delivered frames,
stopping when a step terminates the loop; collects the ack-action
invocations. -/
def runFrames (w : Nat) (s : DispatchState) : List (Frame α) → DispatchState × List Nat
  | [] => (s, [])
  | f :: fs =>
    let r := runStep w s f
    match r.2.2 with
    | .terminated => (r.1, r.2.1)
    | .looping =>
      let t := runFrames w r.1 fs
      (t.1, r.2.1 ++ t.2)

/-! ## Helper lemmas about the ack batcher -/

theorem DelayDo.step_sum (w : Nat) (d : DelayDo) (e : DDEvent) :
    ((d.step w e).2).sum + (d.step w e).1.cnt = d.cnt + addCount [e] := by
  cases e with
  | add =>
    simp only [DelayDo.step, DelayDo.Add, addCount]
    split
    · simp
    · simp
  | fire =>
    simp only [DelayDo.step, DelayDo.timerFire, addCount]
    split
    · split
      · simp
      · simp
        omega
    · simp

theorem DelayDo.step_bounded (w : Nat) (d : DelayDo) (e : DDEvent) (h : d.cnt < w) :
    (d.step w e).1.cnt < w ∧ ∀ x ∈ (d.step w e).2, x ≤ w := by
  cases e with
  | add =>
    simp only [DelayDo.step, DelayDo.Add]
    split
    · simp
      omega
    · simp
      omega
  | fire =>
    simp only [DelayDo.step, DelayDo.timerFire]
    split
    · constructor
      · simp
        omega
      · intro x hx
        split at hx <;> simp at hx
        omega
    · exact ⟨h, by simp⟩

theorem DelayDo.step_timer (w : Nat) (d : DelayDo) (e : DDEvent)
    (h : d.timer = true ↔ 0 < d.cnt ∧ d.cnt < w) :
    (d.step w e).1.timer = true ↔ 0 < (d.step w e).1.cnt ∧ (d.step w e).1.cnt < w := by
  cases e with
  | add =>
    simp only [DelayDo.step, DelayDo.Add]
    split
    · simp
    · simp
      omega
  | fire =>
    simp only [DelayDo.step, DelayDo.timerFire]
    split
    · simp
    · exact h

theorem DelayDo.run_cons (w : Nat) (d : DelayDo) (e : DDEvent) (es : List DDEvent) :
    d.run w (e :: es) =
      (((d.step w e).1.run w es).1, (d.step w e).2 ++ ((d.step w e).1.run w es).2) := by
  rfl

theorem addCount_cons (e : DDEvent) (es : List DDEvent) :
    addCount (e :: es) = addCount [e] + addCount es := by
  cases e <;> simp [addCount] <;> omega

theorem DelayDo.run_sum (w : Nat) (es : List DDEvent) :
    ∀ d : DelayDo, ((d.run w es).2).sum + (d.run w es).1.cnt = d.cnt + addCount es := by
  induction es with
  | nil =>
    intro d
    simp [DelayDo.run, addCount]
  | cons e es ih =>
    intro d
    rw [DelayDo.run_cons, addCount_cons]
    have h1 := DelayDo.step_sum w d e
    have h2 := ih (d.step w e).1
    simp only [List.sum_append]
    omega

theorem DelayDo.run_bounded (w : Nat) (es : List DDEvent) :
    ∀ d : DelayDo, d.cnt < w →
      (d.run w es).1.cnt < w ∧ ∀ x ∈ (d.run w es).2, x ≤ w := by
  induction es with
  | nil =>
    intro d h
    simpa [DelayDo.run] using h
  | cons e es ih =>
    intro d h
    rw [DelayDo.run_cons]
    have h1 := DelayDo.step_bounded w d e h
    have h2 := ih (d.step w e).1 h1.1
    refine ⟨h2.1, ?_⟩
    intro x hx
    rcases List.mem_append.mp hx with hx | hx
    · exact h1.2 x hx
    · exact h2.2 x hx

theorem DelayDo.run_timer_iff (w : Nat) (es : List DDEvent) :
    ∀ d : DelayDo, (d.timer = true ↔ 0 < d.cnt ∧ d.cnt < w) →
      ((d.run w es).1.timer = true ↔ 0 < (d.run w es).1.cnt ∧ (d.run w es).1.cnt < w) := by
  induction es with
  | nil =>
    intro d h
    simpa [DelayDo.run] using h
  | cons e es ih =>
    intro d h
    rw [DelayDo.run_cons]
    exact ih (d.step w e).1 (DelayDo.step_timer w d e h)

/-! ## Claims about the ack batcher -/

/-- Claim C5: for every finite sequence of `DelayDo.Add()` calls with timer
firings interleaved arbitrarily, the arguments of all action invocations
sum to the total number of adds minus the still-pending count — so once the
pending count is zero they sum exactly to the total number of adds — and no
single invocation's argument exceeds the configured threshold
(`WIN_SIZE`, a positive constant, taken here as the parameter `w`). -/
theorem claim_C5 (w : Nat) (hw : 0 < w) (es : List DDEvent) :
    ((NewDelayDo.run w es).2).sum + (NewDelayDo.run w es).1.cnt = addCount es ∧
    ((NewDelayDo.run w es).1.cnt = 0 → ((NewDelayDo.run w es).2).sum = addCount es) ∧
    ∀ x ∈ (NewDelayDo.run w es).2, x ≤ w := by
  have h1 := DelayDo.run_sum w es NewDelayDo
  have h2 := DelayDo.run_bounded w es NewDelayDo (by simpa [NewDelayDo] using hw)
  have h0 : NewDelayDo.cnt = 0 := rfl
  rw [h0] at h1
  exact ⟨by omega, by omega, h2.2⟩

/-- Witness for C5: threshold 30, three adds then a timer firing — the
invocation arguments sum to the three adds. -/
theorem claim_C5_witness :
    ((NewDelayDo.run 30 [.add, .add, .add, .fire]).2).sum +
        (NewDelayDo.run 30 [.add, .add, .add, .fire]).1.cnt =
      addCount [.add, .add, .add, .fire] :=
  (claim_C5 30 (by decide) [.add, .add, .add, .fire]).1

/-- Claim C6: in every state of a `DelayDo` reachable from `NewDelayDo` by
`Add()` calls and timer firings, a timer is running if and only if the
pending count is strictly between zero and the threshold. -/
theorem claim_C6 (w : Nat) (es : List DDEvent) :
    (NewDelayDo.run w es).1.timer = true ↔
      0 < (NewDelayDo.run w es).1.cnt ∧ (NewDelayDo.run w es).1.cnt < w :=
  DelayDo.run_timer_iff w es NewDelayDo (by simp [NewDelayDo])

/-! ## Claims about the pipe adapter and the inbox -/

/-- Claim C7: `Pipe.Read` and `Pipe.Write` translate the low-level
closed-pipe error (`io.ErrClosedPipe`) into end-of-stream (`io.EOF`): the
caller never observes the closed-pipe error, and observes `EOF` exactly
when the underlying operation reported `EOF` or the closed-pipe error — so
"closed" and "end of stream" are indistinguishable to the caller.  The byte
count is passed through unchanged. -/
theorem claim_C7 (res : Nat × Option IOErr) :
    (Pipe.Read res).2 ≠ some .closedPipe ∧
    (Pipe.Write res).2 ≠ some .closedPipe ∧
    ((Pipe.Read res).2 = some .eof ↔ (res.2 = some .eof ∨ res.2 = some .closedPipe)) ∧
    ((Pipe.Write res).2 = some .eof ↔ (res.2 = some .eof ∨ res.2 = some .closedPipe)) ∧
    (Pipe.Read res).1 = res.1 ∧ (Pipe.Write res).1 = res.1 := by
  obtain ⟨n, e⟩ := res
  rcases e with _ | e
  · simp [Pipe.Read, Pipe.Write]
  · cases e <;> simp [Pipe.Read, Pipe.Write]

/-- Claim C10: `Pipe.Close` always returns nil — also on repeated calls —
and afterwards the `Closed` flag is set and both the reader and the writer
end are closed. -/
theorem claim_C10 (p : PipeState) :
    (p.Close).2 = none ∧ (p.Close).1.Closed = true ∧
    (p.Close).1.prClosed = true ∧ (p.Close).1.pwClosed = true ∧
    (p.Close).1.Close = p.Close := by
  simp [PipeState.Close]

/-- Claim C8: `SendFrame` on a full or already-closed inbox returns `false`
without enqueuing the frame (the state is unchanged, the frame dropped),
and returns `true` exactly when the frame was enqueued. -/
theorem claim_C8 {α : Type} (c : ChanState α) (f : α) :
    ((c.SendFrame f).2 = true ↔ (c.SendFrame f).1.queue = c.queue ++ [f]) ∧
    ((c.SendFrame f).2 = false → (c.SendFrame f).1 = c) ∧
    (c.closed = true ∨ c.cap ≤ c.queue.length → c.SendFrame f = (c, false)) := by
  unfold ChanState.SendFrame
  split
  · rename_i hclosed
    refine ⟨by simp, fun _ => rfl, fun _ => rfl⟩
  · rename_i hclosed
    split
    · rename_i hroom
      refine ⟨by simp, by simp, ?_⟩
      rintro (h | h)
      · exact absurd h (by simpa using hclosed)
      · omega
    · rename_i hroom
      refine ⟨by simp, fun _ => rfl, fun _ => rfl⟩

/-- Witness for C8: a full inbox of capacity 1 rejects a frame and is left
unchanged. -/
theorem claim_C8_witness :
    (ChanState.mk [0] 1 false).SendFrame 7 = (ChanState.mk [0] 1 false, false) :=
  (claim_C8 (ChanState.mk [0] 1 false) 7).2.2 (Or.inr (by decide))

/-! ## Claims about `Conn.Write` -/

/-- Claim C9: `Conn.Write` on an empty payload returns `(0, nil)` and hands
no chunk to the session's window-controlled sender. -/
theorem claim_C9 (send : Nat → List Nat → Option Unit) (rnd : Nat → Nat) :
    connWrite send rnd 0 0 ([] : List Nat) = (0, none, []) := by
  simp [connWrite]

/-! ## Helper lemmas about the close/teardown state machine -/

theorem ConnState.Close_err (c : ConnState) : (c.Close).2 = none := by
  unfold ConnState.Close SeqWriter.Close
  by_cases h : c.sw.closed <;> simp [h]

theorem ConnState.Close_state (c : ConnState) :
    (c.Close).1 =
      if c.pipeClosed then ({ c with sw := { closed := true } } : ConnState).remove_port
      else { c with sw := { closed := true } } := by
  obtain ⟨⟨swc⟩, pc, cc, rd, rc⟩ := c
  cases swc <;> cases pc <;> simp [ConnState.Close, SeqWriter.Close]

theorem ConnState.remove_port_calls (c : ConnState)
    (h : c.removeCalls = if c.removeDone then 1 else 0) :
    (c.remove_port).removeCalls = 1 ∧ (c.remove_port).removeDone = true := by
  unfold ConnState.remove_port
  by_cases hd : c.removeDone <;> simp [hd] <;> simp [hd] at h <;> omega

/-- The one-shot invariant carried through every event: the removal count
matches the `sync.Once` flag, and once both sides are closed the removal
has been performed. -/
def ConnInv (c : ConnState) : Prop :=
  c.removeCalls = (if c.removeDone then 1 else 0) ∧
  (c.pipeClosed = true → c.sw.closed = true → c.removeDone = true)

theorem ConnState.applyEvent_inv (c : ConnState) (e : ConnEvent) (h : ConnInv c) :
    ConnInv (c.applyEvent e) := by
  obtain ⟨⟨swc⟩, pc, cc, rd, rc⟩ := c
  obtain ⟨h1, h2⟩ := h
  cases e <;> cases swc <;> cases pc <;> cases rd <;>
    simp_all [ConnInv, ConnState.applyEvent, ConnState.Close, SeqWriter.Close,
      ConnState.handleFin, ConnState.CloseAll, ConnState.remove_port]

theorem ConnState.applyEvent_mono (c : ConnState) (e : ConnEvent) :
    (c.pipeClosed = true → (c.applyEvent e).pipeClosed = true) ∧
    (c.sw.closed = true → (c.applyEvent e).sw.closed = true) ∧
    (c.removeDone = true → (c.applyEvent e).removeDone = true) := by
  obtain ⟨⟨swc⟩, pc, cc, rd, rc⟩ := c
  cases e <;> cases swc <;> cases pc <;> cases rd <;>
    simp_all [ConnState.applyEvent, ConnState.Close, SeqWriter.Close,
      ConnState.handleFin, ConnState.CloseAll, ConnState.remove_port]

theorem ConnState.applyEvent_close_sw (c : ConnState) :
    (c.applyEvent .localClose).sw.closed = true := by
  obtain ⟨⟨swc⟩, pc, cc, rd, rc⟩ := c
  cases swc <;> cases pc <;> cases rd <;>
    simp_all [ConnState.applyEvent, ConnState.Close, SeqWriter.Close,
      ConnState.remove_port]

theorem ConnState.applyEvent_fin_pipe (c : ConnState) :
    (c.applyEvent .remoteFin).pipeClosed = true := by
  obtain ⟨⟨swc⟩, pc, cc, rd, rc⟩ := c
  cases swc <;> cases pc <;> cases rd <;>
    simp_all [ConnState.applyEvent, ConnState.handleFin, ConnState.remove_port]

theorem ConnState.applyEvent_teardown_done (c : ConnState) :
    (c.applyEvent .teardown).removeDone = true := by
  obtain ⟨⟨swc⟩, pc, cc, rd, rc⟩ := c
  cases swc <;> cases rd <;>
    simp_all [ConnState.applyEvent, ConnState.CloseAll, SeqWriter.Close,
      ConnState.remove_port]

theorem ConnState.runEvents_inv (es : List ConnEvent) :
    ∀ c : ConnState, ConnInv c → ConnInv (c.runEvents es) := by
  induction es with
  | nil => intro c h; simpa [ConnState.runEvents] using h
  | cons e es ih =>
    intro c h
    exact ih _ (ConnState.applyEvent_inv c e h)

theorem ConnState.runEvents_mono (es : List ConnEvent) :
    ∀ c : ConnState,
      (c.pipeClosed = true → (c.runEvents es).pipeClosed = true) ∧
      (c.sw.closed = true → (c.runEvents es).sw.closed = true) ∧
      (c.removeDone = true → (c.runEvents es).removeDone = true) := by
  induction es with
  | nil => intro c; simp [ConnState.runEvents]
  | cons e es ih =>
    intro c
    have hs := ConnState.applyEvent_mono c e
    have hr := ih (c.applyEvent e)
    exact ⟨fun h => hr.1 (hs.1 h), fun h => hr.2.1 (hs.2.1 h), fun h => hr.2.2 (hs.2.2 h)⟩

theorem ConnState.runEvents_mem_fin (es : List ConnEvent) :
    ∀ c : ConnState, ConnEvent.remoteFin ∈ es → (c.runEvents es).pipeClosed = true := by
  induction es with
  | nil => intro c h; cases h
  | cons e es ih =>
    intro c h
    rcases List.mem_cons.mp h with h | h
    · subst h
      exact ((ConnState.runEvents_mono es _).1) (ConnState.applyEvent_fin_pipe c)
    · exact ih _ h

theorem ConnState.runEvents_mem_close (es : List ConnEvent) :
    ∀ c : ConnState, ConnEvent.localClose ∈ es → (c.runEvents es).sw.closed = true := by
  induction es with
  | nil => intro c h; cases h
  | cons e es ih =>
    intro c h
    rcases List.mem_cons.mp h with h | h
    · subst h
      exact ((ConnState.runEvents_mono es _).2.1) (ConnState.applyEvent_close_sw c)
    · exact ih _ h

theorem ConnState.runEvents_mem_teardown (es : List ConnEvent) :
    ∀ c : ConnState, ConnEvent.teardown ∈ es → (c.runEvents es).removeDone = true := by
  induction es with
  | nil => intro c h; cases h
  | cons e es ih =>
    intro c h
    rcases List.mem_cons.mp h with h | h
    · subst h
      exact ((ConnState.runEvents_mono es _).2.2) (ConnState.applyEvent_teardown_done c)
    · exact ih _ h

/-! ## Claim about exactly-once removal -/

/-- Claim C4: local `Close()` always succeeds — in particular calling it
twice succeeds both times, a sender report of "already closed" being
normalized to success — and across any interleaving of the three
`remove_port` call sites (remote `Fin` handling, local `Close()`, fatal
`CloseAll` teardown) the session's `RemovePorts` is invoked at most once,
and exactly once as soon as the trace contains a remote `Fin` together with
a local `Close()` (in either order), or a teardown. -/
theorem claim_C4 (es : List ConnEvent) :
    (∀ c : ConnState, (c.Close).2 = none ∧ ((c.Close).1.Close).2 = none) ∧
    (ConnState.init.runEvents es).removeCalls ≤ 1 ∧
    ((ConnEvent.remoteFin ∈ es ∧ ConnEvent.localClose ∈ es) ∨ ConnEvent.teardown ∈ es →
      (ConnState.init.runEvents es).removeCalls = 1) := by
  have hinv : ConnInv (ConnState.init.runEvents es) :=
    ConnState.runEvents_inv es ConnState.init ⟨rfl, by simp [ConnState.init]⟩
  obtain ⟨h1, h2⟩ := hinv
  refine ⟨fun c => ⟨ConnState.Close_err c, ConnState.Close_err _⟩, ?_, ?_⟩
  · rw [h1]
    split <;> omega
  · rintro (⟨hf, hc⟩ | ht)
    · have hp := ConnState.runEvents_mem_fin es ConnState.init hf
      have hs := ConnState.runEvents_mem_close es ConnState.init hc
      rw [h1, h2 hp hs]
      rfl
    · have hd := ConnState.runEvents_mem_teardown es ConnState.init ht
      rw [h1, hd]
      rfl

/-- Witness for C4: a remote `Fin` followed by a local `Close()` yields
exactly one `RemovePorts` invocation. -/
theorem claim_C4_witness :
    (ConnState.init.runEvents [.remoteFin, .localClose]).removeCalls = 1 :=
  (claim_C4 [.remoteFin, .localClose]).2.2 (Or.inl ⟨by decide, by decide⟩)

/-! ## Claims about the dispatch loop -/

/-- Claim C2 counterexample: from a fresh connection whose local send side
is still open, processing a `Fin` frame terminates the dispatch loop — the
source returns unconditionally at the end of the `FrameFin` branch — while
the claim states the loop continues running in that case. -/
theorem claim_C2_counterexample :
    ConnState.init.sw.closed = false ∧
    (runStep 30 { conn := ConnState.init, dd := NewDelayDo } (Frame.fin : Frame Nat)).2.2 =
      .terminated ∧
    (runStep 30 { conn := ConnState.init, dd := NewDelayDo } (Frame.fin : Frame Nat)).2.2 ≠
      .looping := by
  decide

/-- Claim C2 amended: on a `Fin` frame the dispatch loop closes the local
read side of the byte channel and finishes removal (idempotent via the
one-shot guard) precisely when the local send side is already fully closed
— but it terminates the loop unconditionally, whether or not the local send
side is closed (the half-closed connection may still send, yet no further
frames are dispatched). -/
theorem claim_C2_amended {α : Type} (w : Nat) (s : DispatchState) :
    (runStep w s (Frame.fin : Frame α)).2.2 = .terminated ∧
    (runStep w s (Frame.fin : Frame α)).2.1 = [] ∧
    (runStep w s (Frame.fin : Frame α)).1.dd = s.dd ∧
    (runStep w s (Frame.fin : Frame α)).1.conn.pipeClosed = true ∧
    (runStep w s (Frame.fin : Frame α)).1.conn.removeDone =
      (s.conn.removeDone || s.conn.sw.closed) ∧
    (runStep w s (Frame.fin : Frame α)).1.conn.removeCalls =
      s.conn.removeCalls +
        (if s.conn.removeDone = false ∧ s.conn.sw.closed = true then 1 else 0) := by
  obtain ⟨⟨⟨swc⟩, pc, cc, rd, rc⟩, d⟩ := s
  cases swc <;> cases rd <;>
    simp_all [runStep, ConnState.handleFin, ConnState.remove_port]

theorem addCount_replicate (n : Nat) : addCount (List.replicate n .add) = n := by
  induction n with
  | zero => rfl
  | succ n ih => simpa [List.replicate, addCount] using ih

theorem runFrames_data {α : Type} (w : Nat) (ps : List (List α)) :
    ∀ (c : ConnState) (d : DelayDo), c.pipeClosed = false →
      runFrames w { conn := c, dd := d } (ps.map Frame.data) =
        ({ conn := c, dd := (d.run w (List.replicate ps.length .add)).1 },
          (d.run w (List.replicate ps.length .add)).2) := by
  induction ps with
  | nil =>
    intro c d hp
    simp [runFrames, DelayDo.run, List.replicate]
  | cons p ps ih =>
    intro c d hp
    have hstep : runStep w { conn := c, dd := d } (Frame.data p) =
        ({ conn := c, dd := (d.Add w).1 }, (d.Add w).2, .looping) := by
      simp [runStep, hp]
    simp only [List.map_cons, runFrames, hstep]
    rw [ih c (d.Add w).1 hp]
    simp only [List.length_cons, List.replicate, DelayDo.run_cons]
    rfl

/-- Claim C1 counterexample: with ack threshold 30, a stream receiving two
`Data` frames of 10 and 20 payload bytes fires no ack at all (the batcher
has pending count 2, one per frame), where the claim states an ack for 30
bytes fires immediately after the second frame; after a third frame of 5
bytes the pending count is 3, not a new batch of 5. -/
theorem claim_C1_counterexample :
    (runFrames 30 { conn := ConnState.init, dd := NewDelayDo }
        [Frame.data (List.replicate 10 ()), Frame.data (List.replicate 20 ())]).2 = [] ∧
    (runFrames 30 { conn := ConnState.init, dd := NewDelayDo }
        [Frame.data (List.replicate 10 ()), Frame.data (List.replicate 20 ())]).2 ≠ [30] ∧
    (runFrames 30 { conn := ConnState.init, dd := NewDelayDo }
        [Frame.data (List.replicate 10 ()), Frame.data (List.replicate 20 ())]).1.dd.cnt = 2 ∧
    (runFrames 30 { conn := ConnState.init, dd := NewDelayDo }
        [Frame.data (List.replicate 10 ()), Frame.data (List.replicate 20 ()),
          Frame.data (List.replicate 5 ())]).1.dd.cnt = 3 ∧
    (runFrames 30 { conn := ConnState.init, dd := NewDelayDo }
        [Frame.data (List.replicate 10 ()), Frame.data (List.replicate 20 ()),
          Frame.data (List.replicate 5 ())]).1.dd.cnt ≠ 5 := by
  decide

/-- Claim C1 amended: for every `Data` frame processed by the dispatch
loop, exactly one count is recorded with the ack batcher (`dd.Add()` takes
no argument: the batcher accumulates frame counts, not payload bytes), so
processing a list of `Data` frames drives the batcher exactly like that
many `Add()` calls, independently of the payloads, and the invocation
arguments plus the pending count total the number of frames — not the
number of payload bytes. -/
theorem claim_C1_amended {α : Type} (w : Nat) (ps : List (List α)) :
    runFrames w { conn := ConnState.init, dd := NewDelayDo } (ps.map Frame.data) =
      ({ conn := ConnState.init, dd := (NewDelayDo.run w (List.replicate ps.length .add)).1 },
        (NewDelayDo.run w (List.replicate ps.length .add)).2) ∧
    ((runFrames w { conn := ConnState.init, dd := NewDelayDo } (ps.map Frame.data)).2).sum +
      (runFrames w { conn := ConnState.init, dd := NewDelayDo } (ps.map Frame.data)).1.dd.cnt =
        ps.length := by
  have h := runFrames_data w ps ConnState.init NewDelayDo rfl
  refine ⟨h, ?_⟩
  rw [h]
  have hs := DelayDo.run_sum w (List.replicate ps.length .add) NewDelayDo
  rw [addCount_replicate] at hs
  simpa [NewDelayDo] using hs

/-! ## Helper lemmas about the `Conn.Write` chunking policy -/

theorem chunkSize_pos (r : Nat) {len : Nat} (h : 0 < len) : 0 < chunkSize r len := by
  unfold chunkSize
  split
  · omega
  · split
    · omega
    · exact h

theorem chunkSize_le (r len : Nat) : chunkSize r len ≤ len := by
  have hr : r % 1024 < 1024 := Nat.mod_lt _ (by norm_num)
  unfold chunkSize
  split
  · omega
  · split
    · omega
    · exact Nat.le_refl _

theorem chunkSize_le_4096 (r len : Nat) : chunkSize r len ≤ 4 * 1024 := by
  have hr : r % 1024 < 1024 := Nat.mod_lt _ (by norm_num)
  unfold chunkSize
  split
  · omega
  · split
    · omega
    · omega

theorem chunkSize_big (r : Nat) {len : Nat} (h : 8 * 1024 < len) :
    3 * 1024 ≤ chunkSize r len ∧ chunkSize r len < 4 * 1024 := by
  have hr : r % 1024 < 1024 := Nat.mod_lt _ (by norm_num)
  unfold chunkSize
  rw [if_pos h]
  omega

theorem chunkSize_mid (r : Nat) {len : Nat} (h1 : 4 * 1024 < len) (h2 : len ≤ 8 * 1024) :
    chunkSize r len = len / 2 := by
  unfold chunkSize
  rw [if_neg (by omega), if_pos ⟨h1, h2⟩]

theorem chunkSize_small (r : Nat) {len : Nat} (h : len ≤ 4 * 1024) :
    chunkSize r len = len := by
  unfold chunkSize
  rw [if_neg (by omega), if_neg (by omega)]

theorem connWrite_nil {α ε : Type} (send : Nat → List α → Option ε) (rnd : Nat → Nat)
    (k n : Nat) : connWrite send rnd k n ([] : List α) = (n, none, []) := by
  simp [connWrite]

theorem connWrite_cons {α ε : Type} (send : Nat → List α → Option ε) (rnd : Nat → Nat)
    (k n : Nat) {data : List α} (h : data ≠ []) :
    connWrite send rnd k n data =
      match send k (data.take (chunkSize (rnd k) data.length)) with
      | some e => (n, some e, [data.take (chunkSize (rnd k) data.length)])
      | none =>
        ((connWrite send rnd (k + 1) (n + chunkSize (rnd k) data.length)
            (data.drop (chunkSize (rnd k) data.length))).1,
          (connWrite send rnd (k + 1) (n + chunkSize (rnd k) data.length)
            (data.drop (chunkSize (rnd k) data.length))).2.1,
          data.take (chunkSize (rnd k) data.length) ::
            (connWrite send rnd (k + 1) (n + chunkSize (rnd k) data.length)
              (data.drop (chunkSize (rnd k) data.length))).2.2) := by
  rw [connWrite]
  rw [dif_neg (by simpa using h)]
  rfl

theorem connWrite_main {α ε : Type} (send : Nat → List α → Option ε) (rnd : Nat → Nat) :
    ∀ (m : Nat) (data : List α), data.length ≤ m → ∀ (k n : Nat),
      (∃ rest, (connWrite send rnd k n data).2.2.flatten ++ rest = data) ∧
      ((connWrite send rnd k n data).2.1 = none →
        (connWrite send rnd k n data).2.2.flatten = data ∧
        (connWrite send rnd k n data).1 = n + data.length) ∧
      ((connWrite send rnd k n data).2.1 ≠ none →
        (connWrite send rnd k n data).1 =
          n + ((((connWrite send rnd k n data).2.2.dropLast).map List.length).sum) ∧
        ∃ c, (connWrite send rnd k n data).2.2.getLast? = some c ∧
          send (k + (connWrite send rnd k n data).2.2.length - 1) c =
            (connWrite send rnd k n data).2.1) ∧
      (∀ c ∈ (connWrite send rnd k n data).2.2, c ≠ [] ∧ c.length ≤ 4 * 1024) := by
  intro m
  induction m with
  | zero =>
    intro data hlen k n
    have hdata : data = [] := List.length_eq_zero.mp (Nat.le_zero.mp hlen)
    subst hdata
    rw [connWrite_nil]
    refine ⟨⟨[], rfl⟩, fun _ => ⟨rfl, by simp⟩, fun hne => absurd rfl hne, ?_⟩
    intro c hc
    cases hc
  | succ m ih =>
    intro data hlen k n
    rcases eq_or_ne data [] with hdata | hdata
    · subst hdata
      rw [connWrite_nil]
      refine ⟨⟨[], rfl⟩, fun _ => ⟨rfl, by simp⟩, fun hne => absurd rfl hne, ?_⟩
      intro c hc
      cases hc
    · rw [connWrite_cons send rnd k n hdata]
      have hpos : 0 < chunkSize (rnd k) data.length :=
        chunkSize_pos _ (List.length_pos.mpr hdata)
      have hszle : chunkSize (rnd k) data.length ≤ data.length := chunkSize_le _ _
      have htake_len : (data.take (chunkSize (rnd k) data.length)).length =
          chunkSize (rnd k) data.length := by
        rw [List.length_take]
        omega
      have htake_ne : data.take (chunkSize (rnd k) data.length) ≠ [] := by
        intro h0
        rw [h0] at htake_len
        simp at htake_len
        omega
      have htake_le : (data.take (chunkSize (rnd k) data.length)).length ≤ 4 * 1024 := by
        rw [htake_len]
        exact chunkSize_le_4096 _ _
      have happend : data.take (chunkSize (rnd k) data.length) ++
          data.drop (chunkSize (rnd k) data.length) = data := List.take_append_drop _ _
      cases hsend : send k (data.take (chunkSize (rnd k) data.length)) with
      | some e =>
        refine ⟨⟨data.drop (chunkSize (rnd k) data.length), by simpa using happend⟩,
          fun hnone => by simp at hnone, fun _ => ⟨by simp, ?_⟩, ?_⟩
        · refine ⟨data.take (chunkSize (rnd k) data.length), by simp, ?_⟩
          simpa using hsend
        · intro c hc
          simp at hc
          subst hc
          exact ⟨htake_ne, htake_le⟩
      | none =>
        have hdrop : (data.drop (chunkSize (rnd k) data.length)).length ≤ m := by
          rw [List.length_drop]
          omega
        obtain ⟨IH1, IH2, IH3, IH4⟩ :=
          ih (data.drop (chunkSize (rnd k) data.length)) hdrop (k + 1)
            (n + chunkSize (rnd k) data.length)
        refine ⟨?_, ?_, ?_, ?_⟩
        · obtain ⟨rest, hrest⟩ := IH1
          refine ⟨rest, ?_⟩
          simp only [List.flatten_cons]
          rw [List.append_assoc, hrest, happend]
        · intro hnone
          simp only at hnone
          obtain ⟨hj, hn⟩ := IH2 hnone
          constructor
          · simp only [List.flatten_cons]
            rw [hj, happend]
          · simp only
            rw [hn, List.length_drop]
            omega
        · intro hne
          simp only at hne
          obtain ⟨hn, c, hlast, hsendc⟩ := IH3 hne
          have hcs_ne : (connWrite send rnd (k + 1) (n + chunkSize (rnd k) data.length)
              (data.drop (chunkSize (rnd k) data.length))).2.2 ≠ [] := by
            intro h0
            rw [h0] at hlast
            simp at hlast
          obtain ⟨b, bs, hbs⟩ := List.exists_cons_of_ne_nil hcs_ne
          refine ⟨?_, c, ?_, ?_⟩
          · simp only
            rw [hbs, List.dropLast_cons₂, List.map_cons, List.sum_cons, hn, hbs, htake_len]
            omega
          · simp only
            rw [hbs, List.getLast?_cons_cons, ← hbs, hlast]
          · simp only
            rw [hbs, ← hsendc, hbs]
            congr 1
            simp only [List.length_cons]
            omega
        · intro c hc
          simp only [List.mem_cons] at hc
          rcases hc with hc | hc
          · subst hc
            exact ⟨htake_ne, htake_le⟩
          · exact IH4 c hc

/-- Claim C3: `Conn.Write` chunks its payload by the randomized policy — a
remaining chunk above 8 KiB is cut to a random size in [3 KiB, 4 KiB), one
in (4 KiB, 8 KiB] is halved, one at most 4 KiB is sent whole (so every
chunk handed to the sender is nonempty and at most 4 KiB) — the chunks
handed to the sender concatenate, in order, to a prefix of the payload (the
whole payload when no send fails), and if the sender fails on a chunk,
`Write` stops and returns that error together with a byte count equal to
the sum of the sizes of the previously sent chunks. -/
theorem claim_C3 {α ε : Type} (send : Nat → List α → Option ε) (rnd : Nat → Nat)
    (data : List α) :
    (∀ r len,
      (8 * 1024 < len → 3 * 1024 ≤ chunkSize r len ∧ chunkSize r len < 4 * 1024) ∧
      (4 * 1024 < len → len ≤ 8 * 1024 → chunkSize r len = len / 2) ∧
      (len ≤ 4 * 1024 → chunkSize r len = len)) ∧
    (∃ rest, (connWrite send rnd 0 0 data).2.2.flatten ++ rest = data) ∧
    ((connWrite send rnd 0 0 data).2.1 = none →
      (connWrite send rnd 0 0 data).2.2.flatten = data ∧
      (connWrite send rnd 0 0 data).1 = data.length) ∧
    ((connWrite send rnd 0 0 data).2.1 ≠ none →
      (connWrite send rnd 0 0 data).1 =
        (((connWrite send rnd 0 0 data).2.2.dropLast).map List.length).sum ∧
      ∃ c, (connWrite send rnd 0 0 data).2.2.getLast? = some c ∧
        send ((connWrite send rnd 0 0 data).2.2.length - 1) c =
          (connWrite send rnd 0 0 data).2.1) ∧
    (∀ c ∈ (connWrite send rnd 0 0 data).2.2, c ≠ [] ∧ c.length ≤ 4 * 1024) := by
  obtain ⟨H1, H2, H3, H4⟩ :=
    connWrite_main send rnd data.length data (Nat.le_refl _) 0 0
  refine ⟨?_, H1, fun h => ?_, fun h => ?_, H4⟩
  · intro r len
    exact ⟨fun hb => chunkSize_big r hb, fun h1 h2 => chunkSize_mid r h1 h2,
      fun hs => chunkSize_small r hs⟩
  · obtain ⟨hj, hn⟩ := H2 h
    exact ⟨hj, by simpa using hn⟩
  · obtain ⟨hn, c, hl, hs⟩ := H3 h
    exact ⟨by simpa using hn, c, hl, by simpa using hs⟩

/-- Witness for C3: a sender that fails immediately makes `Write` return
the error with byte count 0, the failing chunk being the whole 3-byte
payload. -/
theorem claim_C3_witness :
    (connWrite (fun _ _ => some ()) (fun _ => 0) 0 0 ([1, 2, 3] : List Nat)).1 =
      (((connWrite (fun _ _ => some ()) (fun _ => 0) 0 0
          ([1, 2, 3] : List Nat)).2.2.dropLast).map List.length).sum ∧
    ∃ c, (connWrite (fun _ _ => some ()) (fun _ => 0) 0 0
        ([1, 2, 3] : List Nat)).2.2.getLast? = some c ∧
      (fun (_ : Nat) (_ : List Nat) => some ())
          ((connWrite (fun _ _ => some ()) (fun _ => 0) 0 0
            ([1, 2, 3] : List Nat)).2.2.length - 1) c =
        (connWrite (fun _ _ => some ()) (fun _ => 0) 0 0 ([1, 2, 3] : List Nat)).2.1 := by
  refine (claim_C3 (fun _ _ => some ()) (fun _ => 0) ([1, 2, 3] : List Nat)).2.2.2.1 ?_
  rw [connWrite_cons _ _ _ _ (by decide)]
  simp

end Msocks
